import Mathlib

/-!
Verification of the commit-record data model and commit-range query engine of
`git-tidy` (`tidy/core.py`), via a shallow embedding in Lean 4.

Conventions of the embedding:

* Python values that can appear as attributes of a commit record are modelled
  by the inductive type `Value` (`Value.none` is Python `None`).  Compiled
  regular-expression patterns (`re.Pattern`) are modelled by
  `RegularExpression Char` from Mathlib; `re.match(pat, s)` anchors at the
  start of `s`, i.e. succeeds iff `pat` matches some prefix of `s`
  (`reMatch` below).
* Python dictionaries are modelled as association lists together with the
  insertion discipline of CPython dicts (`dictInsert` / `mkDict`): inserting
  an existing key updates the value in place, a new key is appended.
* External collaborators (the YAML decoder, the `formaldict` library, the
  `re.search` used on commit descriptions) are modelled at their interface:
  the YAML decoder is an explicit function parameter, and `Schema.parse`
  follows the spec of the schema engine (section 4.1): validation never
  raises, a record is valid iff its error list is empty.
-/

/-- Boolean structural equality of regular expressions, used to give
`RegularExpression Char` decidable equality (Python compares compiled
patterns only by identity, but the embedding needs a lawful equality to put
patterns inside the `Value` domain). -/
def regexBEq : RegularExpression Char → RegularExpression Char → Bool
  | .zero, .zero => true
  | .epsilon, .epsilon => true
  | .char a, .char b => a == b
  | .plus p q, .plus p' q' => regexBEq p p' && regexBEq q q'
  | .comp p q, .comp p' q' => regexBEq p p' && regexBEq q q'
  | .star p, .star p' => regexBEq p p'
  | _, _ => false

theorem regexBEq_iff : ∀ a b : RegularExpression Char, regexBEq a b = true ↔ a = b := by
  intro a
  induction a with
  | zero => intro b; cases b <;> simp [regexBEq]
  | epsilon => intro b; cases b <;> simp [regexBEq]
  | char c => intro b; cases b <;> simp [regexBEq]
  | plus p q ihp ihq =>
    intro b
    cases b <;> simp [regexBEq, ihp, ihq]
    constructor
    · rintro ⟨rfl, rfl⟩
      rfl
    · intro h
      injection h with h1 h2
      exact ⟨h1, h2⟩
  | comp p q ihp ihq =>
    intro b
    cases b <;> simp [regexBEq, ihp, ihq]
    constructor
    · rintro ⟨rfl, rfl⟩
      rfl
    · intro h
      injection h with h1 h2
      exact ⟨h1, h2⟩
  | star p ihp => intro b; cases b <;> simp [regexBEq, ihp]

instance : DecidableEq (RegularExpression Char) := fun a b =>
  decidable_of_iff (regexBEq a b = true) (regexBEq_iff a b)

/-- The domain of Python values that occur as commit attributes, filter
values and grouping keys in `tidy/core.py`:
`none` is Python `None`, `bool`/`int`/`str` are the corresponding scalars,
`pat` is a compiled `re.Pattern`, `trailerList` is the YAML list of commit
trailers flattened to its key/value pairs, and `dict` is a string-valued
Python dictionary (as produced by `_format_commit_attr` for trailers). -/
inductive Value where
  | none
  | bool (b : Bool)
  | int (n : Int)
  | str (s : String)
  | pat (r : RegularExpression Char)
  | trailerList (ts : List (String × String))
  | dict (d : List (String × String))
deriving DecidableEq

/-- Rank of a `Value` constructor, used to make the sorting order on keys
total across constructors (Python would raise `TypeError` when ordering
mixed types; grouping keys of a single attribute share one type in
practice). -/
def Value.rank : Value → Nat
  | .none => 0
  | .bool _ => 1
  | .int _ => 2
  | .str _ => 3
  | .pat _ => 4
  | .trailerList _ => 5
  | .dict _ => 6

/-- Lexicographic "less or equal" on character lists: the ordering Python
uses to compare strings (code-point by code-point, a proper prefix being
smaller).  Defined by structural recursion so that concrete comparisons
evaluate inside the kernel. -/
def strLeB : List Char → List Char → Bool
  | [], _ => true
  | _ :: _, [] => false
  | a :: as, b :: bs => if a = b then strLeB as bs else decide (a < b)

theorem strLeB_cons (a b : Char) (as bs : List Char) :
    strLeB (a :: as) (b :: bs) = if a = b then strLeB as bs else decide (a < b) := rfl

theorem strLeB_total : ∀ as bs : List Char, strLeB as bs = true ∨ strLeB bs as = true := by
  intro as
  induction as with
  | nil => intro bs; left; rfl
  | cons a as ih =>
    intro bs
    cases bs with
    | nil => right; rfl
    | cons b bs =>
      by_cases hab : a = b
      · subst hab
        rw [strLeB_cons, strLeB_cons, if_pos rfl, if_pos rfl]
        exact ih bs
      · rcases lt_or_gt_of_ne hab with h | h
        · left
          rw [strLeB_cons, if_neg hab]
          exact decide_eq_true h
        · right
          rw [strLeB_cons, if_neg (Ne.symm hab)]
          exact decide_eq_true h

theorem strLeB_trans : ∀ as bs cs : List Char,
    strLeB as bs = true → strLeB bs cs = true → strLeB as cs = true := by
  intro as
  induction as with
  | nil => intro bs cs _ _; rfl
  | cons a as ih =>
    intro bs cs hab hbc
    cases bs with
    | nil => exact absurd hab (by simp [strLeB])
    | cons b bs =>
      cases cs with
      | nil => exact absurd hbc (by simp [strLeB])
      | cons c cs =>
        rw [strLeB_cons] at hab hbc ⊢
        by_cases h1 : a = b
        · subst h1
          rw [if_pos rfl] at hab
          by_cases h2 : a = c
          · subst h2
            rw [if_pos rfl] at hbc ⊢
            exact ih bs cs hab hbc
          · rw [if_neg h2] at hbc ⊢
            exact hbc
        · rw [if_neg h1] at hab
          have hlt1 : a < b := of_decide_eq_true hab
          by_cases h2 : b = c
          · subst h2
            rw [if_neg h1]
            exact hab
          · rw [if_neg h2] at hbc
            have hlt2 : b < c := of_decide_eq_true hbc
            have hlt : a < c := lt_trans hlt1 hlt2
            rw [if_neg (ne_of_lt hlt)]
            exact decide_eq_true hlt

/-- Boolean "less or equal" on `Value`: Python ordering on same-typed
scalars (`False < True`, integer order, lexicographic string order),
extended to a total preorder by constructor rank. -/
def vleB : Value → Value → Bool
  | .bool a, .bool b => decide (a ≤ b)
  | .int a, .int b => decide (a ≤ b)
  | .str a, .str b => strLeB a.data b.data
  | a, b => decide (a.rank ≤ b.rank)

/-- The ordering relation used when `group` sorts keys ascending. -/
def vle (a b : Value) : Prop := vleB a b = true

/-- The flipped ordering, used when `group` sorts keys descending
(`sorted(..., reverse=True)`). -/
def vge (a b : Value) : Prop := vleB b a = true

instance : DecidableRel vle := fun a b => inferInstanceAs (Decidable (vleB a b = true))

instance : DecidableRel vge := fun a b => inferInstanceAs (Decidable (vleB b a = true))

theorem vleB_total : ∀ a b : Value, vleB a b = true ∨ vleB b a = true := by
  intro a b
  cases a <;> cases b <;> simp [vleB, Value.rank] <;>
    first
    | omega
    | exact le_total _ _
    | exact strLeB_total _ _

theorem vleB_trans :
    ∀ a b c : Value, vleB a b = true → vleB b c = true → vleB a c = true := by
  intro a b c hab hbc
  cases a <;> cases b <;> cases c <;> simp_all [vleB, Value.rank] <;>
    first
    | omega
    | exact le_trans ‹_› ‹_›
    | exact strLeB_trans _ _ _ ‹_› ‹_›

instance : IsTotal Value vle := ⟨vleB_total⟩

instance : IsTrans Value vle := ⟨vleB_trans⟩

instance : IsTotal Value vge := ⟨fun a b => (vleB_total b a).imp id id⟩

instance : IsTrans Value vge := ⟨fun _ _ _ hab hbc => vleB_trans _ _ _ hbc hab⟩

/-- Semantics of Python `re.match(r, s)` for a compiled pattern `r`:
true iff `r` matches a prefix of `s` (`re.match` anchors at the start of
the string but not at its end). -/
def reMatch (r : RegularExpression Char) (s : String) : Bool :=
  s.toList.inits.any fun p => r.rmatch p

theorem reMatch_iff (r : RegularExpression Char) (s : String) :
    reMatch r s = true ↔ ∃ p, p <+: s.toList ∧ p ∈ r.matches' := by
  simp only [reMatch, List.any_eq_true, List.mem_inits]
  constructor
  · rintro ⟨p, hp, hm⟩
    exact ⟨p, hp, (RegularExpression.rmatch_iff_matches' r p).mp hm⟩
  · rintro ⟨p, hp, hm⟩
    exact ⟨p, hp, (RegularExpression.rmatch_iff_matches' r p).mpr hm⟩

/-- Embedding of `tidy.core._equals(a, b, match)`: plain equality when
`mtch` is false; when `mtch` is true, regex-match `b` against `a` if `a`
is a string (`re.match(b, a) is not None`) and return `False` for any
non-string `a`. -/
def _equals (a b : Value) (mtch : Bool) : Bool :=
  if mtch then
    match a, b with
    | .str s, .pat r => reMatch r s
    | _, _ => false
  else a == b

/-- One entry of a commit schema, mirroring the YAML dictionaries handled by
`tidy.core._load_commit_schema`.  `label` is `Option`-valued because a
user-supplied entry may omit the `label` key (which the loader rejects). -/
structure SchemaEntry where
  label : Option String
  name : String := ""
  help : String := ""
  type : String := ""
  multiline : Bool := false
  required : Bool := true
deriving DecidableEq

/-- The labels declared by a schema (Python: `attr in self._schema`). -/
def schemaLabels (schema : List SchemaEntry) : List String :=
  schema.filterMap (fun e => e.label)

/-- Model of `formaldict.FormalDict` at its interface (the library is an
external collaborator): a materialized field map plus an ordered list of
validation-error messages. -/
structure FormalDict where
  parsed : List (String × Value)
  errors : List String
deriving DecidableEq

/-- Model of `FormalDict.is_valid`: per the schema-engine contract a record
is valid iff its error list is empty. -/
def FormalDict.is_valid (d : FormalDict) : Bool := d.errors.isEmpty

/-- Model of `formaldict.Schema.parse` at its interface: produce a record
containing the input entries for the schema-declared labels, and accumulate
a validation error for every required schema field with no value supplied.
Validation never raises; validity is carried by the error list.
(The `condition`/`pattern`/`choices` checks of the schema engine are not
used by any property proved in this file and are not modelled.) -/
def Schema.parse (schema : List SchemaEntry) (data : List (String × Value)) : FormalDict :=
  { parsed := data.filter (fun kv => kv.1 ∈ schemaLabels schema),
    errors := schema.filterMap (fun e =>
      match e.label with
      | some l =>
        if e.required && (data.lookup l).isNone then some ("missing field " ++ l) else Option.none
      | Option.none => Option.none) }

/-- Model of a constructed `tidy.core.Commit` object: the raw (stripped)
message, the schema it was parsed against, the `formaldict` record, and the
`_is_parsed` flag. -/
structure CommitRec where
  data : String
  schema : List SchemaEntry
  schema_data : FormalDict
  is_parsed : Bool
deriving DecidableEq

/-- The object-level (built-in) attributes of a `Commit`, found by
`object.__getattribute__` before the dynamic fallback of
`Commit.__getattribute__` runs: instance fields and class properties. -/
def commitBuiltins : List String :=
  ["data", "msg", "schema_data", "is_parsed", "is_valid", "validation_errors", "tag",
   "_schema", "_tag_match", "_is_parsed"]

/-- Result of a `Commit` attribute access: a built-in object attribute, or a
`Value` from the dynamic fallback (`Value.none` models Python `None`). -/
inductive AttrResult where
  | builtin
  | val (v : Value)
deriving DecidableEq

/-- Embedding of `Commit.__getattribute__`: a built-in attribute is returned
directly; otherwise, if the record's field map is non-empty and holds the
attribute, its value is returned; otherwise a schema-declared attribute
yields `None`; otherwise the `AttributeError` is re-raised (`.error ()`). -/
def CommitRec.getattr (c : CommitRec) (attr : String) : Except Unit AttrResult :=
  if attr ∈ commitBuiltins then .ok .builtin
  else
    match (if c.schema_data.parsed.isEmpty then Option.none else c.schema_data.parsed.lookup attr) with
    | some v => .ok (.val v)
    | Option.none =>
      if attr ∈ schemaLabels c.schema then .ok (.val Value.none) else .error ()

/-- The `Value`-domain view of `getattr(commit, attr)` used by the query
algebra (`filter`/`exclude`/`group`) and by `lint`: the built-in attributes
whose values live in the `Value` domain are materialized, the rest reads the
field map (schema-declared fields that are absent read as `None`, matching
`Commit.__getattribute__`). -/
def CommitRec.queryAttr (c : CommitRec) (attr : String) : Value :=
  if attr = "msg" ∨ attr = "data" then .str c.data
  else if attr = "is_parsed" then .bool c.is_parsed
  else if attr = "is_valid" then .bool c.schema_data.is_valid
  else
    match c.schema_data.parsed.lookup attr with
    | some v => v
    | Option.none => Value.none

/-- CPython dict insertion: assigning to an existing key updates the value
in place (keeping the key's position), a new key is appended at the end. -/
def dictInsert {β : Type} (d : List (String × β)) (k : String) (v : β) : List (String × β) :=
  if (d.lookup k).isSome then
    d.map (fun kv => if kv.1 = k then (k, v) else kv)
  else d ++ [(k, v)]

/-- Build a Python dict (as an association list) from a sequence of
key/value assignments, later assignments overriding earlier ones.  This is
the semantics of both dict comprehensions and `{**a, **b}` merges. -/
def mkDict {β : Type} (l : List (String × β)) : List (String × β) :=
  l.foldl (fun d kv => dictInsert d kv.1 kv.2) []

/-- Python `str.strip()`: remove leading and trailing whitespace.
Implemented on the character list so that concrete values evaluate inside
the kernel. -/
def strStrip (s : String) : String :=
  ⟨((s.data.dropWhile Char.isWhitespace).reverse.dropWhile Char.isWhitespace).reverse⟩

/-- Python `str.lower()` (over the character list). -/
def strLower (s : String) : String := ⟨s.data.map Char.toLower⟩

/-- Python `str.replace('-', '_')`: a single-character replacement is a map
over the characters. -/
def strReplaceDashUnderscore (s : String) : String :=
  ⟨s.data.map (fun c => if c = '-' then '_' else c)⟩

/-- Normalization applied to a trailer key by `_format_commit_attr`:
`trailer_key.strip().lower().replace('-', '_')`. -/
def normalizeTrailerKey (k : String) : String :=
  strReplaceDashUnderscore (strLower (strStrip k))

/-- Embedding of `tidy.core._format_commit_attr(key, value)`.
For the `trailers` key, the list of trailer key/value pairs is rebuilt as a
dictionary with normalized keys and stripped values.  For the `description`
key, the trailing RFC822-style trailer block located by
`re.search(REGEX_RFC822_POSTFIX, value)` is cut off; the search itself is an
external `re` capability and is passed in as `descSearch`, returning the
start position of the match if any.  Finally every string value other than
the trailers is stripped. -/
def _format_commit_attr (descSearch : String → Option Nat) (key : String) (value : Value) : Value :=
  if key = "trailers" then
    match value with
    | .trailerList ts => .dict (mkDict (ts.map fun kv => (normalizeTrailerKey kv.1, strStrip kv.2)))
    | v => v
  else
    let value :=
      if key = "description" then
        match value with
        | .str s =>
          match descSearch s with
          | some i => .str (strStrip ⟨s.data.take i⟩)
          | Option.none => .str s
        | v => v
      else value
    match value with
    | .str s => .str (strStrip s)
    | v => v

/-- Embedding of `re.match(r'sha: (?P<sha>[a-fA-F\d]+)\n', msg)`: the text
must start with `sha: `, followed by at least one hexadecimal character and
a newline; the hexadecimal run is returned.  (The character class
`[a-fA-F\d]` cannot match a newline, so the greedy quantifier needs no
backtracking.) -/
def isShaChar (c : Char) : Bool :=
  c.isDigit || ('a' ≤ c && c ≤ 'f') || ('A' ≤ c && c ≤ 'F')

def matchShaLine (s : String) : Option String :=
  if "sha: ".data.isPrefixOf s.data then
    let rest := s.data.drop 5
    let hex := rest.takeWhile isShaChar
    if !hex.isEmpty && "\n".data.isPrefixOf (rest.drop hex.length) then some ⟨hex⟩
    else Option.none
  else Option.none

/-- The degraded record built by the `except` branch of `Commit.__init__`
when structured decode fails with error text `exc`: the `sha` is recovered
from the leading line of the message; if even that fails, the
`AttributeError` on `match.group` propagates out of the constructor
(`.error ()`). -/
def mkDegraded (schema : List SchemaEntry) (msg exc : String) : Except Unit CommitRec :=
  match matchShaLine msg with
  | some sha =>
    .ok { data := msg, schema := schema,
          schema_data := { parsed := [("sha", Value.str sha)],
                           errors := ["CommitParseError: " ++ exc] },
          is_parsed := false }
  | Option.none => .error ()

/-- The flattened field map built inside `Commit.__init__`:
`{**{k: v for k, v in commit_data.items() if k != 'trailers'},
**commit_data['trailers']}`, where `commit_data` is the decoded entry `cd`
after `_format_commit_attr` and `ts'` is the (already formatted) trailer
dictionary. -/
def flattenedMap (descSearch : String → Option Nat) (cd : List (String × Value))
    (ts' : List (String × String)) : List (String × Value) :=
  mkDict
    (((cd.map fun kv => (kv.1, _format_commit_attr descSearch kv.1 kv.2)).filter
        fun kv => kv.1 ≠ "trailers")
     ++ ts'.map fun kv => (kv.1, Value.str kv.2))

/-- The body of the `try` block of `Commit.__init__` after YAML decode:
format every attribute with `_format_commit_attr`, then flatten the result
with `flattenedMap` and run the schema engine on it.  Looking up `trailers`
on a decoded entry without that key (or whose value did not format to a
dictionary) raises, which the caller turns into the degraded record. -/
def parseCommitData (descSearch : String → Option Nat) (schema : List SchemaEntry)
    (cd : List (String × Value)) : Except String FormalDict :=
  match (cd.map fun kv => (kv.1, _format_commit_attr descSearch kv.1 kv.2)).lookup "trailers" with
  | some (.dict ts) => .ok (Schema.parse schema (flattenedMap descSearch cd ts))
  | _ => .error "trailers"

/-- Embedding of `Commit.__init__(msg, schema)`.  The YAML decoder
(`yaml.safe_load`) is an external capability, passed in as `decode`; a
`.error exc` decode result models a raised exception with text `exc`.
Any failure inside the `try` block (decode failure, missing or malformed
`trailers` key) produces the degraded record of `mkDegraded`. -/
def Commit.init (decode : String → Except String (List (String × Value)))
    (descSearch : String → Option Nat) (schema : List SchemaEntry)
    (msg : String) : Except Unit CommitRec :=
  let msg := strStrip msg
  match decode msg with
  | .error exc => mkDegraded schema msg exc
  | .ok cd =>
    match parseCommitData descSearch schema cd with
    | .ok fd => .ok { data := msg, schema := schema, schema_data := fd, is_parsed := true }
    | .error exc => mkDegraded schema msg exc

/-- The base default schema of `_load_commit_schema` (always present). -/
def default_schema_base : List SchemaEntry :=
  [{ label := some "summary", name := "Summary",
     help := "A high-level summary of the commit.", type := "string" },
   { label := some "description", name := "Description",
     help := "An in-depth description of the changes.", type := "string",
     multiline := true, required := false }]

/-- The additional default fields appended when `full=True`. -/
def default_schema_full : List SchemaEntry :=
  [{ label := some "sha", name := "SHA",
     help := "Full SHA of the commit.", type := "string" },
   { label := some "author_name", name := "Author Name",
     help := "The author name of the commit.", type := "string" },
   { label := some "author_email", name := "Author Email",
     help := "The author email of the commit.", type := "string" },
   { label := some "author_date", name := "Author Date",
     help := "The time at which the commit was authored.", type := "datetime" },
   { label := some "committer_name", name := "Committer Name",
     help := "The name of the person who performed the commit.", type := "string" },
   { label := some "committer_email", name := "Committer Email",
     help := "The email of the person who performed the commit.", type := "string" },
   { label := some "committer_date", name := "Committer Date",
     help := "The time at which the commit was performed.", type := "datetime" }]

/-- The validation loop of `_load_commit_schema` over the user-supplied
entries: every entry must carry a `label`, and `multiline` is only allowed
on the entry labelled `description`. -/
def validateUserSchema : List SchemaEntry → Except String Unit
  | [] => .ok ()
  | e :: es =>
    match e.label with
    | Option.none => .error "Entry in schema does not have label"
    | some l =>
      if e.multiline && l ≠ "description" then
        .error "Multi-line input is only allowed for the commit description."
      else validateUserSchema es

/-- Embedding of `tidy.core._load_commit_schema` (with the user schema,
already YAML-decoded, passed in instead of being read from a file): after
validating the user entries, the result is the default fields whose labels
are not overridden by any user field, in their original order, followed by
all user fields in the order supplied. -/
def _load_commit_schema (user_schema : List SchemaEntry) (full : Bool) :
    Except String (List SchemaEntry) :=
  let default_schema :=
    if full then default_schema_base ++ default_schema_full else default_schema_base
  match validateUserSchema user_schema with
  | .error e => .error e
  | .ok () =>
    let user_labels := user_schema.filterMap (fun e => e.label)
    .ok ((default_schema.filter fun e =>
            match e.label with
            | some l => l ∉ user_labels
            | Option.none => true)
         ++ user_schema)

/-- The merge policy as worded by the specification (for comparison with
`_load_commit_schema`): the default fields in their original positions,
each default whose label also appears in the user list replaced in place by
that user field, followed by the user fields whose labels are not in the
default set, in the order supplied. -/
def specMergeSchema (defaults user : List SchemaEntry) : List SchemaEntry :=
  (defaults.map fun d =>
    match d.label.bind (fun l => user.find? (fun u => u.label = some l)) with
    | some u => u
    | Option.none => d)
  ++ user.filter (fun u =>
    match u.label with
    | some l => (defaults.find? (fun d => d.label = some l)).isNone
    | Option.none => true)

/-- Embedding of `Commits.filter(attr, value, match)`: keep the commits
whose attribute `_equals` the value. -/
def Commits.filter (commits : List CommitRec) (attr : String) (value : Value)
    (mtch : Bool) : List CommitRec :=
  commits.filter fun c => _equals (c.queryAttr attr) value mtch

/-- Embedding of `Commits.exclude(attr, value, match)`: keep the commits
whose attribute does not `_equals` the value. -/
def Commits.exclude (commits : List CommitRec) (attr : String) (value : Value)
    (mtch : Bool) : List CommitRec :=
  commits.filter fun c => !(_equals (c.queryAttr attr) value mtch)

/-- First-seen deduplication of a list, with an accumulator of already-seen
elements: the key order of
`collections.OrderedDict((getattr(commit, attr), True) for commit in self)`. -/
def firstSeenAux (seen : List Value) : List Value → List Value
  | [] => []
  | k :: ks =>
    if k ∈ seen then firstSeenAux seen ks
    else k :: firstSeenAux (k :: seen) ks

/-- The distinct attribute values of the collection in first-seen order. -/
def firstSeen (l : List Value) : List Value := firstSeenAux [] l

/-- Embedding of the key computation of `Commits.group(attr, ...)`:
natural (first-seen) key order; if a sort flag is set, the non-`None` keys
are sorted (descending wins when both flags are set, via `reverse=
descending_keys`) and the `None` key is appended, with `none_key_last`
defaulting to true when no explicit placement flag accompanies a sort flag;
finally an explicit placement flag moves the `None` key (if present) to the
front (`none_key_first` wins) or to the back. -/
def Commits.groupKeys (commits : List CommitRec) (attr : String)
    (ascending_keys descending_keys none_key_first none_key_last : Bool) : List Value :=
  let none_key_last :=
    if (ascending_keys || descending_keys) && !(none_key_first || none_key_last) then true
    else none_key_last
  let keys := firstSeen (commits.map (fun c => c.queryAttr attr))
  let keys :=
    if ascending_keys || descending_keys then
      let sortedKeys :=
        if descending_keys then List.insertionSort vge (keys.filter fun k => !(k == Value.none))
        else List.insertionSort vle (keys.filter fun k => !(k == Value.none))
      if Value.none ∈ keys then sortedKeys ++ [Value.none] else sortedKeys
    else keys
  if (none_key_first || none_key_last) ∧ Value.none ∈ keys then
    let keys' := keys.erase Value.none
    if none_key_first then Value.none :: keys' else keys' ++ [Value.none]
  else keys

/-- Embedding of `Commits.group(attr, ...)`: the ordered dictionary mapping
each key to `self.filter(attr, key)`. -/
def Commits.group (commits : List CommitRec) (attr : String)
    (ascending_keys descending_keys none_key_first none_key_last : Bool) :
    List (Value × List CommitRec) :=
  (Commits.groupKeys commits attr ascending_keys descending_keys none_key_first none_key_last).map
    fun k => (k, Commits.filter commits attr k false)

/-- Embedding of `tidy.core.lint(range, any)`, with the commits of the
range (built by `CommitRange`, an external git interaction) passed in
directly.  Python truthiness of a `Commits` sequence is `len > 0`. -/
def lint (commits : List CommitRec) (anyFlag : Bool) : Bool × List CommitRec :=
  if !anyFlag then
    ((Commits.filter commits "is_valid" (Value.bool false) false).isEmpty, commits)
  else
    (!(Commits.filter commits "is_valid" (Value.bool true) false).isEmpty, commits)

theorem _equals_eq_iff (a b : Value) : _equals a b false = true ↔ a = b := by
  simp [_equals]

theorem mem_Commits_filter (commits : List CommitRec) (attr : String) (value : Value)
    (mtch : Bool) (c : CommitRec) :
    c ∈ Commits.filter commits attr value mtch ↔
      c ∈ commits ∧ _equals (c.queryAttr attr) value mtch = true := by
  simp [Commits.filter, List.mem_filter]

theorem mem_Commits_exclude (commits : List CommitRec) (attr : String) (value : Value)
    (mtch : Bool) (c : CommitRec) :
    c ∈ Commits.exclude commits attr value mtch ↔
      c ∈ commits ∧ ¬ _equals (c.queryAttr attr) value mtch = true := by
  simp [Commits.exclude, List.mem_filter]

theorem mem_firstSeenAux (l : List Value) :
    ∀ (seen : List Value) (x : Value), x ∈ firstSeenAux seen l ↔ x ∈ l ∧ x ∉ seen := by
  induction l with
  | nil => intro seen x; simp [firstSeenAux]
  | cons k ks ih =>
    intro seen x
    by_cases hk : k ∈ seen
    · rw [firstSeenAux, if_pos hk, ih]
      constructor
      · rintro ⟨hx, hs⟩
        exact ⟨List.mem_cons_of_mem _ hx, hs⟩
      · rintro ⟨hx, hs⟩
        rcases List.mem_cons.mp hx with rfl | hx
        · exact absurd hk hs
        · exact ⟨hx, hs⟩
    · rw [firstSeenAux, if_neg hk]
      by_cases hxk : x = k
      · subst hxk
        simp [hk]
      · constructor
        · intro hx
          rcases List.mem_cons.mp hx with rfl | hx
          · exact absurd rfl hxk
          · rcases (ih _ _).mp hx with ⟨h1, h2⟩
            refine ⟨List.mem_cons_of_mem _ h1, fun hs => h2 (List.mem_cons_of_mem _ hs)⟩
        · rintro ⟨hx, hs⟩
          rcases List.mem_cons.mp hx with rfl | hx
          · exact List.mem_cons_self _ _
          · refine List.mem_cons_of_mem _ ((ih _ _).mpr ⟨hx, fun hx' => ?_⟩)
            rcases List.mem_cons.mp hx' with rfl | hx'
            · exact hxk rfl
            · exact hs hx'

theorem mem_firstSeen (l : List Value) (x : Value) : x ∈ firstSeen l ↔ x ∈ l := by
  rw [firstSeen, mem_firstSeenAux]
  simp

theorem groupKeys_no_flags (commits : List CommitRec) (attr : String) :
    Commits.groupKeys commits attr false false false false =
      firstSeen (commits.map fun c => c.queryAttr attr) := by
  simp [Commits.groupKeys]

theorem mem_Commits_group (commits : List CommitRec) (attr : String)
    (a d f l : Bool) (k : Value) (g : List CommitRec) :
    (k, g) ∈ Commits.group commits attr a d f l ↔
      k ∈ Commits.groupKeys commits attr a d f l ∧ g = Commits.filter commits attr k false := by
  simp only [Commits.group, List.mem_map]
  constructor
  · rintro ⟨k', hk', heq⟩
    obtain ⟨rfl, rfl⟩ := Prod.mk.injEq .. ▸ And.intro (congrArg Prod.fst heq) (congrArg Prod.snd heq)
    exact ⟨hk', rfl⟩
  · rintro ⟨hk, rfl⟩
    exact ⟨k, hk, rfl⟩

/-- A commit record with a given field map, used as concrete input for the
witness theorems. -/
def mkSampleCommit (m : List (String × Value)) : CommitRec :=
  { data := "", schema := [], schema_data := { parsed := m, errors := [] }, is_parsed := true }

def cBug : CommitRec := mkSampleCommit [("type", Value.str "bug")]

def cApi : CommitRec := mkSampleCommit [("type", Value.str "api-break")]

def cNoType : CommitRec := mkSampleCommit [("summary", Value.str "s")]

/-- C1: for every collection of commits, attribute `a`, value `v` and
`usePattern` flag, `filter` and `exclude` partition the collection: they are
disjoint, their union as a set is the original collection, and each is a
sublist of the original (preserving relative order). -/
theorem claim_C1 (commits : List CommitRec) (a : String) (v : Value) (usePattern : Bool) :
    (∀ c, c ∈ Commits.filter commits a v usePattern →
        c ∉ Commits.exclude commits a v usePattern)
    ∧ (∀ c, c ∈ commits ↔
        c ∈ Commits.filter commits a v usePattern ∨ c ∈ Commits.exclude commits a v usePattern)
    ∧ List.Sublist (Commits.filter commits a v usePattern) commits
    ∧ List.Sublist (Commits.exclude commits a v usePattern) commits := by
  refine ⟨?_, ?_, List.filter_sublist _, List.filter_sublist _⟩
  · intro c hf he
    rw [mem_Commits_filter] at hf
    rw [mem_Commits_exclude] at he
    exact he.2 hf.2
  · intro c
    rw [mem_Commits_filter, mem_Commits_exclude]
    by_cases h : _equals (c.queryAttr a) v usePattern = true <;> tauto

theorem claim_C1_witness :
    cBug ∈ Commits.filter [cBug, cApi] "type" (Value.str "bug") false ∧
    cBug ∉ Commits.exclude [cBug, cApi] "type" (Value.str "bug") false :=
  ⟨by decide, (claim_C1 [cBug, cApi] "type" (Value.str "bug") false).1 cBug (by decide)⟩

/-- C2: `group(a)` (no flags) maps each key to `filter(a, key)`, every
element of group `k` has attribute value `k`, and the groups cover the
original collection exactly. -/
theorem claim_C2 (commits : List CommitRec) (a : String) :
    (∀ c, c ∈ commits ↔
        ∃ k g, (k, g) ∈ Commits.group commits a false false false false ∧ c ∈ g)
    ∧ (∀ k g, (k, g) ∈ Commits.group commits a false false false false →
        ∀ c ∈ g, c.queryAttr a = k)
    ∧ (∀ k g, (k, g) ∈ Commits.group commits a false false false false →
        g = Commits.filter commits a k false) := by
  refine ⟨?_, ?_, ?_⟩
  · intro c
    constructor
    · intro hc
      refine ⟨c.queryAttr a, Commits.filter commits a (c.queryAttr a) false, ?_, ?_⟩
      · rw [mem_Commits_group, groupKeys_no_flags, mem_firstSeen]
        exact ⟨List.mem_map.mpr ⟨c, hc, rfl⟩, rfl⟩
      · rw [mem_Commits_filter]
        exact ⟨hc, by simp [_equals]⟩
    · rintro ⟨k, g, hg, hcg⟩
      rw [mem_Commits_group] at hg
      rcases hg with ⟨_, rfl⟩
      exact ((mem_Commits_filter ..).mp hcg).1
  · intro k g hg c hcg
    rw [mem_Commits_group] at hg
    rcases hg with ⟨_, rfl⟩
    have h := ((mem_Commits_filter ..).mp hcg).2
    rwa [_equals_eq_iff] at h
  · intro k g hg
    exact ((mem_Commits_group ..).mp hg).2

theorem claim_C2_witness :
    (Value.str "bug", [cBug]) ∈ Commits.group [cBug, cApi] "type" false false false false ∧
    [cBug] = Commits.filter [cBug, cApi] "type" (Value.str "bug") false :=
  ⟨by decide, (claim_C2 [cBug, cApi] "type").2.2 (Value.str "bug") [cBug] (by decide)⟩

/-- C8: with `usePattern=false`, `filter` keeps exactly the commits whose
attribute equals the value (including `None == None`); with
`usePattern=true` and a compiled pattern `r`, it keeps exactly the commits
whose attribute is a string with a prefix in the language of `r` (the match
is anchored at the start), and a commit whose attribute is not a string is
never kept in pattern mode. -/
theorem claim_C8 :
    (∀ (commits : List CommitRec) (a : String) (v : Value) (c : CommitRec),
        c ∈ Commits.filter commits a v false ↔ c ∈ commits ∧ c.queryAttr a = v)
    ∧ (∀ (commits : List CommitRec) (a : String) (r : RegularExpression Char) (c : CommitRec),
        c ∈ Commits.filter commits a (Value.pat r) true ↔
          c ∈ commits ∧ ∃ s, c.queryAttr a = Value.str s ∧ ∃ p, p <+: s.toList ∧ p ∈ r.matches')
    ∧ (∀ (commits : List CommitRec) (a : String) (r : RegularExpression Char) (c : CommitRec),
        (∀ s, c.queryAttr a ≠ Value.str s) →
          c ∉ Commits.filter commits a (Value.pat r) true) := by
  refine ⟨?_, ?_, ?_⟩
  · intro commits a v c
    rw [mem_Commits_filter, _equals_eq_iff]
  · intro commits a r c
    rw [mem_Commits_filter]
    constructor
    · rintro ⟨hc, he⟩
      refine ⟨hc, ?_⟩
      cases hq : c.queryAttr a <;> rw [hq] at he <;> simp [_equals] at he
      case str s => exact ⟨s, rfl, (reMatch_iff r s).mp he⟩
    · rintro ⟨hc, s, hq, p, hp, hm⟩
      refine ⟨hc, ?_⟩
      rw [hq]
      show reMatch r s = true
      exact (reMatch_iff r s).mpr ⟨p, hp, hm⟩
  · intro commits a r c hns hmem
    rcases (mem_Commits_filter ..).mp hmem with ⟨-, he⟩
    cases hq : c.queryAttr a <;> rw [hq] at he <;> simp [_equals] at he
    case str s => exact hns s hq

def patBU : RegularExpression Char := RegularExpression.comp (.char 'b') (.char 'u')

theorem claim_C8_witness :
    cBug ∈ [cBug, cApi] ∧
    ∃ s, cBug.queryAttr "type" = Value.str s ∧ ∃ p, p <+: s.toList ∧ p ∈ patBU.matches' :=
  (claim_C8.2.1 [cBug, cApi] "type" patBU cBug).mp (by decide)

/-- C10: over an empty commit range, `lint` passes (with the empty
collection) when `any=False` and fails when `any=True`. -/
theorem claim_C10 : lint [] false = (true, []) ∧ lint [] true = (false, []) := by
  constructor <;> rfl

deriving instance DecidableEq for Except

def userSummaryEntry : SchemaEntry := { label := some "summary", name := "My Summary" }

/-- C3 counterexample: with the single user field labelled `summary`, the
loader does not produce the order claimed by the specification (default
fields with in-place replacement, then new user fields): the user `summary`
field is appended after `description` instead of replacing the default
`summary` field in place. -/
theorem claim_C3_counterexample :
    _load_commit_schema [userSummaryEntry] false ≠
      .ok (specMergeSchema default_schema_base [userSummaryEntry]) := by
  decide

/-- C3 (amended): for every user field list that passes validation (each
entry has a label, multiline only on `description`), the built schema is
the default fields whose labels are not overridden by any user field, in
their original order, followed by all user fields — including the
overriding ones — in the order supplied. -/
theorem claim_C3 (user : List SchemaEntry) (full : Bool)
    (h : validateUserSchema user = .ok ()) :
    _load_commit_schema user full =
      .ok (((if full then default_schema_base ++ default_schema_full
             else default_schema_base).filter fun e =>
              match e.label with
              | some l => l ∉ user.filterMap (fun u => u.label)
              | Option.none => true)
           ++ user) := by
  unfold _load_commit_schema
  rw [h]

theorem claim_C3_witness :
    validateUserSchema [userSummaryEntry] = .ok () ∧
    _load_commit_schema [userSummaryEntry] false =
      .ok ((default_schema_base.filter fun e =>
              match e.label with
              | some l => l ∉ [userSummaryEntry].filterMap (fun u => u.label)
              | Option.none => true)
           ++ [userSummaryEntry]) :=
  ⟨by decide, claim_C3 [userSummaryEntry] false (by decide)⟩

theorem lookup_nil {β : Type} (k : String) : ([] : List (String × β)).lookup k = Option.none := rfl

theorem lookup_cons_eq {β : Type} (a k : String) (b : β) (l : List (String × β)) :
    ((a, b) :: l).lookup k = if k = a then some b else l.lookup k := by
  rw [List.lookup_cons]
  by_cases h : k = a
  · rw [if_pos h, beq_iff_eq.mpr h]
  · rw [if_neg h, beq_eq_false_iff_ne.mpr h]

theorem lookup_append {β : Type} (l₁ l₂ : List (String × β)) (k : String) :
    (l₁ ++ l₂).lookup k = (l₁.lookup k).or (l₂.lookup k) := by
  induction l₁ with
  | nil => simp [lookup_nil]
  | cons kv l ih =>
    obtain ⟨a, b⟩ := kv
    by_cases h : k = a <;> simp [lookup_cons_eq, h, ih]

theorem lookup_eq_none_iff {β : Type} (l : List (String × β)) (k : String) :
    l.lookup k = Option.none ↔ ∀ kv ∈ l, kv.1 ≠ k := by
  induction l with
  | nil => simp [lookup_nil]
  | cons kv l ih =>
    obtain ⟨a, b⟩ := kv
    rw [lookup_cons_eq]
    by_cases h : k = a
    · subst h
      simp
    · rw [if_neg h, ih]
      constructor
      · intro hl kv hkv
        rcases List.mem_cons.mp hkv with rfl | hkv
        · exact fun hc => h hc.symm
        · exact hl kv hkv
      · intro hl kv hkv
        exact hl kv (List.mem_cons_of_mem _ hkv)

theorem lookup_of_mem_nodup {β : Type} (l : List (String × β)) (k : String) (v : β)
    (hnd : (l.map Prod.fst).Nodup) (hm : (k, v) ∈ l) : l.lookup k = some v := by
  induction l with
  | nil => cases hm
  | cons kv l ih =>
    obtain ⟨a, b⟩ := kv
    rw [List.map_cons, List.nodup_cons] at hnd
    rcases List.mem_cons.mp hm with heq | hm'
    · injection heq with h1 h2
      subst h1; subst h2
      rw [lookup_cons_eq, if_pos rfl]
    · rw [lookup_cons_eq]
      have hka : k ≠ a := by
        intro hc
        subst hc
        exact hnd.1 (List.mem_map.mpr ⟨(k, v), hm', rfl⟩)
      rw [if_neg hka]
      exact ih hnd.2 hm'

theorem lookup_update_self {β : Type} (d : List (String × β)) (k' : String) (v : β)
    (hs : (d.lookup k').isSome) :
    (d.map (fun kv => if kv.1 = k' then (k', v) else kv)).lookup k' = some v := by
  induction d with
  | nil => simp [lookup_nil] at hs
  | cons kv d ih =>
    obtain ⟨a, b⟩ := kv
    by_cases hak : a = k'
    · subst hak
      simp [lookup_cons_eq]
    · rw [lookup_cons_eq, if_neg (fun h => hak h.symm)] at hs
      simp only [List.map_cons]
      rw [if_neg hak, lookup_cons_eq, if_neg (fun h => hak h.symm)]
      exact ih hs

theorem lookup_update_other {β : Type} (d : List (String × β)) (k k' : String) (v : β)
    (hkk : k ≠ k') :
    (d.map (fun kv => if kv.1 = k' then (k', v) else kv)).lookup k = d.lookup k := by
  induction d with
  | nil => rfl
  | cons kv d ih =>
    obtain ⟨a, b⟩ := kv
    simp only [List.map_cons]
    by_cases hak : a = k'
    · subst hak
      rw [if_pos rfl, lookup_cons_eq, lookup_cons_eq, if_neg hkk, if_neg hkk]
      exact ih
    · rw [if_neg hak, lookup_cons_eq, lookup_cons_eq]
      by_cases hka : k = a
      · rw [if_pos hka, if_pos hka]
      · rw [if_neg hka, if_neg hka]
        exact ih

theorem lookup_dictInsert {β : Type} (d : List (String × β)) (k k' : String) (v : β) :
    (dictInsert d k' v).lookup k = if k = k' then some v else d.lookup k := by
  unfold dictInsert
  by_cases hs : (d.lookup k').isSome
  · rw [if_pos hs]
    by_cases hkk : k = k'
    · subst hkk
      rw [if_pos rfl]
      exact lookup_update_self d k v hs
    · rw [if_neg hkk]
      exact lookup_update_other d k k' v hkk
  · rw [if_neg hs, lookup_append]
    by_cases hkk : k = k'
    · subst hkk
      rw [if_pos rfl]
      have hd : d.lookup k = Option.none := by
        cases h : d.lookup k
        · rfl
        · rw [h] at hs
          simp at hs
      rw [hd, lookup_cons_eq, if_pos rfl]
      rfl
    · rw [if_neg hkk, lookup_cons_eq, if_neg hkk]
      cases d.lookup k <;> rfl

theorem lookup_foldl_dictInsert {β : Type} :
    ∀ (l acc : List (String × β)) (k : String),
      (l.foldl (fun d kv => dictInsert d kv.1 kv.2) acc).lookup k =
        (l.reverse.lookup k).or (acc.lookup k) := by
  intro l
  induction l with
  | nil => intro acc k; simp [lookup_nil]
  | cons kv l ih =>
    intro acc k
    obtain ⟨a, b⟩ := kv
    simp only [List.foldl_cons, List.reverse_cons]
    rw [ih, lookup_append, lookup_dictInsert]
    by_cases hka : k = a
    · subst hka
      rw [lookup_cons_eq, if_pos rfl, if_pos rfl]
      cases l.reverse.lookup k <;> rfl
    · rw [lookup_cons_eq, if_neg hka, if_neg hka]
      cases l.reverse.lookup k <;> rfl

theorem lookup_mkDict {β : Type} (l : List (String × β)) (k : String) :
    (mkDict l).lookup k = l.reverse.lookup k := by
  rw [mkDict, lookup_foldl_dictInsert]
  cases l.reverse.lookup k <;> rfl

theorem dictInsert_of_lookup_none {β : Type} (acc : List (String × β)) (k : String) (v : β)
    (h : acc.lookup k = Option.none) : dictInsert acc k v = acc ++ [(k, v)] := by
  unfold dictInsert
  rw [h]
  rfl

theorem mkDict_foldl_nodup {β : Type} :
    ∀ (l acc : List (String × β)),
      (∀ kv ∈ l, acc.lookup kv.1 = Option.none) → (l.map Prod.fst).Nodup →
      l.foldl (fun d kv => dictInsert d kv.1 kv.2) acc = acc ++ l := by
  intro l
  induction l with
  | nil => intro acc _ _; simp
  | cons kv l ih =>
    intro acc hacc hnd
    obtain ⟨a, b⟩ := kv
    rw [List.map_cons, List.nodup_cons] at hnd
    simp only [List.foldl_cons]
    rw [dictInsert_of_lookup_none acc a b (hacc (a, b) (List.mem_cons_self _ _))]
    rw [ih (acc ++ [(a, b)]) ?_ hnd.2]
    · simp
    · intro kv hkv
      rw [lookup_append]
      rw [hacc kv (List.mem_cons_of_mem _ hkv), lookup_cons_eq]
      have : kv.1 ≠ a := by
        intro hc
        exact hnd.1 (hc ▸ List.mem_map.mpr ⟨kv, hkv, rfl⟩)
      rw [if_neg this]
      rfl

/-- A Python dict built from key/value pairs with pairwise-distinct keys is
just those pairs in order. -/
theorem mkDict_nodup {β : Type} (l : List (String × β))
    (hnd : (l.map Prod.fst).Nodup) : mkDict l = l := by
  rw [mkDict, mkDict_foldl_nodup l [] (fun _ _ => rfl) hnd]
  rfl

/-- C5: for every raw log entry whose structured decode fails but whose
stripped text begins with a line `sha: <hex>`, constructing the commit does
not raise, and the record has `is_parsed = false`, `is_valid = false`, the
`sha` field equal to the hexadecimal run of the leading line, and exactly
one validation error wrapping the decode failure. -/
theorem claim_C5 (decode : String → Except String (List (String × Value)))
    (descSearch : String → Option Nat) (schema : List SchemaEntry)
    (msg exc sha : String)
    (hdec : decode (strStrip msg) = .error exc)
    (hsha : matchShaLine (strStrip msg) = some sha) :
    ∃ c, Commit.init decode descSearch schema msg = .ok c
      ∧ c.is_parsed = false
      ∧ c.schema_data.is_valid = false
      ∧ c.schema_data.parsed.lookup "sha" = some (Value.str sha)
      ∧ c.schema_data.errors = ["CommitParseError: " ++ exc] := by
  have h : Commit.init decode descSearch schema msg =
      .ok { data := strStrip msg, schema := schema,
            schema_data := { parsed := [("sha", Value.str sha)],
                             errors := ["CommitParseError: " ++ exc] },
            is_parsed := false } := by
    simp only [Commit.init, hdec, mkDegraded, hsha]
  refine ⟨_, h, rfl, rfl, ?_, rfl⟩
  rw [lookup_cons_eq, if_pos rfl]

def badDecode : String → Except String (List (String × Value)) :=
  fun _ => .error "boom"

def noSearch : String → Option Nat := fun _ => Option.none

theorem claim_C5_witness :
    badDecode (strStrip "sha: abcdef1234567890\nbroken: : yaml") = .error "boom" ∧
    matchShaLine (strStrip "sha: abcdef1234567890\nbroken: : yaml") = some "abcdef1234567890" ∧
    ∃ c, Commit.init badDecode noSearch default_schema_base
          "sha: abcdef1234567890\nbroken: : yaml" = .ok c
      ∧ c.is_parsed = false
      ∧ c.schema_data.is_valid = false
      ∧ c.schema_data.parsed.lookup "sha" = some (Value.str "abcdef1234567890")
      ∧ c.schema_data.errors = ["CommitParseError: " ++ "boom"] :=
  ⟨by decide, by decide,
   claim_C5 badDecode noSearch default_schema_base "sha: abcdef1234567890\nbroken: : yaml"
     "boom" "abcdef1234567890" (by decide) (by decide)⟩

/-- C6: for every commit record and every attribute that is not a built-in
object attribute and is absent from the materialized field map, access
yields `None` when the attribute is declared in the schema, and raises
(`AttributeError`) when it is not declared. -/
theorem claim_C6 (c : CommitRec) (attr : String)
    (hb : attr ∉ commitBuiltins)
    (hm : c.schema_data.parsed.lookup attr = Option.none) :
    (attr ∈ schemaLabels c.schema → c.getattr attr = .ok (.val Value.none))
    ∧ (attr ∉ schemaLabels c.schema → c.getattr attr = .error ()) := by
  have hnone : (if c.schema_data.parsed.isEmpty then Option.none
                else c.schema_data.parsed.lookup attr) = (Option.none : Option Value) := by
    rw [hm]
    split <;> rfl
  constructor <;> intro hs <;> simp only [CommitRec.getattr, hnone] <;> rw [if_neg hb]
  · rw [if_pos hs]
  · rw [if_neg hs]

def cJira : CommitRec :=
  { data := "", schema := [{ label := some "jira" }],
    schema_data := { parsed := [("sha", Value.str "a")], errors := [] }, is_parsed := true }

theorem claim_C6_witness :
    ("jira" ∉ commitBuiltins ∧ cJira.schema_data.parsed.lookup "jira" = Option.none ∧
      cJira.getattr "jira" = .ok (.val Value.none))
    ∧ ("nope" ∉ commitBuiltins ∧ cJira.schema_data.parsed.lookup "nope" = Option.none ∧
      cJira.getattr "nope" = .error ()) :=
  ⟨⟨by decide, by decide, (claim_C6 cJira "jira" (by decide) (by decide)).1 (by decide)⟩,
   ⟨by decide, by decide, (claim_C6 cJira "nope" (by decide) (by decide)).2 (by decide)⟩⟩

theorem lookup_map_keyed {β : Type} (f : String → β → β) (l : List (String × β)) (k : String) :
    (l.map fun kv => (kv.1, f kv.1 kv.2)).lookup k = (l.lookup k).map (f k) := by
  induction l with
  | nil => rfl
  | cons kv l ih =>
    obtain ⟨a, b⟩ := kv
    by_cases h : k = a
    · subst h
      simp [lookup_cons_eq, ih]
    · simp [lookup_cons_eq, h, ih]

theorem format_trailers_eq (descSearch : String → Option Nat) (ts : List (String × String))
    (hnd : (ts.map fun kv => normalizeTrailerKey kv.1).Nodup) :
    _format_commit_attr descSearch "trailers" (Value.trailerList ts) =
      Value.dict (ts.map fun kv => (normalizeTrailerKey kv.1, strStrip kv.2)) := by
  have hkeys : ((ts.map fun kv => (normalizeTrailerKey kv.1, strStrip kv.2)).map Prod.fst).Nodup := by
    rw [List.map_map]
    exact hnd
  show Value.dict (mkDict (ts.map fun kv => (normalizeTrailerKey kv.1, strStrip kv.2))) = _
  rw [mkDict_nodup _ hkeys]

theorem formatted_lookup_trailers (descSearch : String → Option Nat)
    (cd : List (String × Value)) (ts : List (String × String))
    (htr : cd.lookup "trailers" = some (Value.trailerList ts))
    (hnd : (ts.map fun kv => normalizeTrailerKey kv.1).Nodup) :
    (cd.map fun kv => (kv.1, _format_commit_attr descSearch kv.1 kv.2)).lookup "trailers" =
      some (Value.dict (ts.map fun kv => (normalizeTrailerKey kv.1, strStrip kv.2))) := by
  rw [lookup_map_keyed, htr, Option.map_some', format_trailers_eq descSearch ts hnd]

def jiraDecode : String → Except String (List (String × Value)) :=
  fun _ => .ok [("sha", Value.str "deadbeef"), ("summary", Value.str "s"),
                ("trailers", Value.trailerList [("Jira", "WEB-123")])]

def jiraSchema : List SchemaEntry := [{ label := some "sha" }, { label := some "jira" }]

/-- The record built from a well-formed entry with trailer `{Jira: WEB-123}`
against a schema declaring `jira`. -/
def jiraRecord : CommitRec :=
  match Commit.init jiraDecode noSearch jiraSchema "" with
  | .ok c => c
  | .error _ => mkSampleCommit []

/-- C7: for every well-formed structured entry (decoded map with a trailer
list whose normalized keys are distinct), every trailer pair is hoisted to
the top level of the flattened field map under its normalized key
(stripped, lower-cased, hyphens to underscores) with its value stripped;
the `trailers` key itself is discarded; the constructed commit carries the
schema engine's record of exactly that flattened map; and concretely an
entry with trailer `{Jira: WEB-123}` yields a record whose `jira` attribute
is `"WEB-123"`, with no key under the original casing. -/
theorem claim_C7 :
    (∀ (descSearch : String → Option Nat) (cd : List (String × Value))
        (ts : List (String × String)) (tk tv : String),
      (ts.map fun kv => normalizeTrailerKey kv.1).Nodup →
      (tk, tv) ∈ ts →
      (flattenedMap descSearch cd
          (ts.map fun kv => (normalizeTrailerKey kv.1, strStrip kv.2))).lookup
        (normalizeTrailerKey tk) = some (Value.str (strStrip tv)))
    ∧ (∀ (descSearch : String → Option Nat) (cd : List (String × Value))
        (ts' : List (String × String)),
      (∀ kv ∈ ts', kv.1 ≠ "trailers") →
      (flattenedMap descSearch cd ts').lookup "trailers" = Option.none)
    ∧ (∀ (decode : String → Except String (List (String × Value)))
        (descSearch : String → Option Nat) (schema : List SchemaEntry)
        (msg : String) (cd : List (String × Value)) (ts : List (String × String)),
      decode (strStrip msg) = .ok cd →
      cd.lookup "trailers" = some (Value.trailerList ts) →
      (ts.map fun kv => normalizeTrailerKey kv.1).Nodup →
      Commit.init decode descSearch schema msg =
        .ok { data := strStrip msg, schema := schema,
              schema_data := Schema.parse schema (flattenedMap descSearch cd
                (ts.map fun kv => (normalizeTrailerKey kv.1, strStrip kv.2))),
              is_parsed := true })
    ∧ (Commit.init jiraDecode noSearch jiraSchema "" = .ok jiraRecord
       ∧ jiraRecord.getattr "jira" = .ok (.val (Value.str "WEB-123"))
       ∧ jiraRecord.schema_data.parsed.lookup "Jira" = Option.none
       ∧ jiraRecord.getattr "Jira" = .error ()) := by
  refine ⟨?_, ?_, ?_, by decide, by decide, by decide, by decide⟩
  · intro descSearch cd ts tk tv hnd hmem
    rw [flattenedMap, lookup_mkDict, List.reverse_append, lookup_append]
    have h1 : ((((ts.map fun kv => (normalizeTrailerKey kv.1, strStrip kv.2)).map
          fun kv => (kv.1, Value.str kv.2)).reverse).lookup (normalizeTrailerKey tk)) =
        some (Value.str (strStrip tv)) := by
      apply lookup_of_mem_nodup
      · rw [List.map_reverse, List.map_map, List.map_map]
        rw [List.nodup_reverse]
        exact hnd
      · rw [List.mem_reverse]
        exact List.mem_map.mpr ⟨(normalizeTrailerKey tk, strStrip tv),
          List.mem_map.mpr ⟨(tk, tv), hmem, rfl⟩, rfl⟩
    rw [h1]
    rfl
  · intro descSearch cd ts' hts
    rw [flattenedMap, lookup_mkDict, List.reverse_append, lookup_append]
    have h1 : (((ts'.map fun kv => (kv.1, Value.str kv.2)).reverse).lookup "trailers") =
        (Option.none : Option Value) := by
      rw [lookup_eq_none_iff]
      intro kv hkv
      rw [List.mem_reverse] at hkv
      rcases List.mem_map.mp hkv with ⟨kv', hkv', rfl⟩
      exact hts kv' hkv'
    have h2 : ((((cd.map fun kv => (kv.1, _format_commit_attr descSearch kv.1 kv.2)).filter
          fun kv => kv.1 ≠ "trailers").reverse).lookup "trailers") =
        (Option.none : Option Value) := by
      rw [lookup_eq_none_iff]
      intro kv hkv
      rw [List.mem_reverse, List.mem_filter] at hkv
      exact of_decide_eq_true hkv.2
    rw [h1, h2]
    rfl
  · intro decode descSearch schema msg cd ts hdec htr hnd
    simp only [Commit.init, hdec, parseCommitData,
      formatted_lookup_trailers descSearch cd ts htr hnd]

theorem claim_C7_witness :
    (flattenedMap noSearch
        [("sha", Value.str "x"), ("trailers", Value.trailerList [("Jira", " WEB-123 ")])]
        ([("Jira", " WEB-123 ")].map fun kv => (normalizeTrailerKey kv.1, strStrip kv.2))).lookup
      (normalizeTrailerKey "Jira") = some (Value.str (strStrip " WEB-123 ")) :=
  claim_C7.1 noSearch
    [("sha", Value.str "x"), ("trailers", Value.trailerList [("Jira", " WEB-123 ")])]
    [("Jira", " WEB-123 ")] "Jira" " WEB-123 " (by decide) (by decide)

theorem group_fst_eq (commits : List CommitRec) (a : String) (f1 f2 f3 f4 : Bool) :
    (Commits.group commits a f1 f2 f3 f4).map Prod.fst =
      Commits.groupKeys commits a f1 f2 f3 f4 := by
  rw [Commits.group, List.map_map]
  exact List.map_id _

theorem none_not_mem_sort (r : Value → Value → Prop) [DecidableRel r] (l : List Value) :
    Value.none ∉ List.insertionSort r (l.filter fun k => !(k == Value.none)) := by
  intro h
  rw [List.mem_insertionSort, List.mem_filter] at h
  simp at h

theorem erase_append_none (l : List Value) (h : Value.none ∉ l) :
    (l ++ [Value.none]).erase Value.none = l := by
  rw [List.erase_append_right _ h]
  simp

theorem filter_nonone_append_none (l : List Value) (h : Value.none ∉ l) :
    ((l ++ [Value.none]).filter fun k => !(k == Value.none)) = l := by
  rw [List.filter_append]
  have h2 : ([Value.none].filter fun k => !(k == Value.none)) = [] := rfl
  rw [h2, List.append_nil, List.filter_eq_self.mpr]
  intro k hk
  simp only [bne_iff_ne, ne_eq, Bool.not_eq_eq_eq_not, Bool.not_true, beq_eq_false_iff_ne]
  rintro rfl
  exact h hk

theorem groupKeys_asc (commits : List CommitRec) (a : String) :
    Commits.groupKeys commits a true false false false =
      (if Value.none ∈ firstSeen (commits.map fun c => c.queryAttr a) then
        List.insertionSort vle
          ((firstSeen (commits.map fun c => c.queryAttr a)).filter fun k => !(k == Value.none))
        ++ [Value.none]
       else
        List.insertionSort vle
          ((firstSeen (commits.map fun c => c.queryAttr a)).filter fun k => !(k == Value.none))) := by
  simp only [Commits.groupKeys]
  by_cases hn : Value.none ∈ firstSeen (commits.map fun c => c.queryAttr a)
  · rw [if_pos hn, if_pos hn]
    have hnm : Value.none ∈
        (List.insertionSort vle
          ((firstSeen (commits.map fun c => c.queryAttr a)).filter fun k => !(k == Value.none))
         ++ [Value.none]) := List.mem_append_right _ (List.mem_singleton.mpr rfl)
    rw [if_pos ⟨rfl, hnm⟩]
    rw [if_neg (by simp)]
    rw [if_pos (show (true || false) = true from rfl)]
    rw [if_neg (show ¬ (false = true) from by decide)]
    rw [erase_append_none _ (none_not_mem_sort vle _)]
  · rw [if_neg hn, if_neg hn]
    rw [if_pos (show (true || false) = true from rfl)]
    rw [if_neg (show ¬ (false = true) from by decide)]
    exact if_neg (fun hc => none_not_mem_sort vle _ hc.2)

theorem groupKeys_desc (commits : List CommitRec) (a : String) :
    Commits.groupKeys commits a false true false false =
      (if Value.none ∈ firstSeen (commits.map fun c => c.queryAttr a) then
        List.insertionSort vge
          ((firstSeen (commits.map fun c => c.queryAttr a)).filter fun k => !(k == Value.none))
        ++ [Value.none]
       else
        List.insertionSort vge
          ((firstSeen (commits.map fun c => c.queryAttr a)).filter fun k => !(k == Value.none))) := by
  simp only [Commits.groupKeys]
  by_cases hn : Value.none ∈ firstSeen (commits.map fun c => c.queryAttr a)
  · rw [if_pos hn, if_pos hn]
    have hnm : Value.none ∈
        (List.insertionSort vge
          ((firstSeen (commits.map fun c => c.queryAttr a)).filter fun k => !(k == Value.none))
         ++ [Value.none]) := List.mem_append_right _ (List.mem_singleton.mpr rfl)
    rw [if_pos ⟨rfl, hnm⟩]
    rw [if_neg (by simp)]
    rw [if_pos (show (false || true) = true from rfl)]
    rw [if_pos trivial]
    rw [erase_append_none _ (none_not_mem_sort vge _)]
  · rw [if_neg hn, if_neg hn]
    rw [if_pos (show (false || true) = true from rfl)]
    rw [if_pos trivial]
    exact if_neg (fun hc => none_not_mem_sort vge _ hc.2)

theorem groupKeys_both (commits : List CommitRec) (a : String) :
    Commits.groupKeys commits a true true false false =
      (if Value.none ∈ firstSeen (commits.map fun c => c.queryAttr a) then
        List.insertionSort vge
          ((firstSeen (commits.map fun c => c.queryAttr a)).filter fun k => !(k == Value.none))
        ++ [Value.none]
       else
        List.insertionSort vge
          ((firstSeen (commits.map fun c => c.queryAttr a)).filter fun k => !(k == Value.none))) := by
  simp only [Commits.groupKeys]
  by_cases hn : Value.none ∈ firstSeen (commits.map fun c => c.queryAttr a)
  · rw [if_pos hn, if_pos hn]
    have hnm : Value.none ∈
        (List.insertionSort vge
          ((firstSeen (commits.map fun c => c.queryAttr a)).filter fun k => !(k == Value.none))
         ++ [Value.none]) := List.mem_append_right _ (List.mem_singleton.mpr rfl)
    rw [if_pos ⟨rfl, hnm⟩]
    rw [if_neg (by simp)]
    rw [if_pos (show (true || true) = true from rfl)]
    rw [if_pos trivial]
    rw [erase_append_none _ (none_not_mem_sort vge _)]
  · rw [if_neg hn, if_neg hn]
    rw [if_pos (show (true || true) = true from rfl)]
    rw [if_pos trivial]
    exact if_neg (fun hc => none_not_mem_sort vge _ hc.2)

theorem groupKeys_nkf (commits : List CommitRec) (a : String)
    (hn : Value.none ∈ firstSeen (commits.map fun c => c.queryAttr a)) :
    Commits.groupKeys commits a false false true false =
      Value.none :: ((firstSeen (commits.map fun c => c.queryAttr a)).erase Value.none) := by
  simp only [Commits.groupKeys]
  rw [if_neg (show ¬ ((false || false) = true) from by decide)]
  rw [if_pos ⟨rfl, hn⟩]
  rw [if_pos trivial]

theorem groupKeys_nkl (commits : List CommitRec) (a : String)
    (hn : Value.none ∈ firstSeen (commits.map fun c => c.queryAttr a)) :
    Commits.groupKeys commits a false false false true =
      ((firstSeen (commits.map fun c => c.queryAttr a)).erase Value.none) ++ [Value.none] := by
  simp only [Commits.groupKeys]
  rw [if_neg (show ¬ ((false || false) = true) from by decide)]
  rw [if_pos ⟨rfl, hn⟩]
  rw [if_neg (show ¬ (false = true) from by decide)]

theorem groupKeys_nkf_nkl (commits : List CommitRec) (a : String)
    (hn : Value.none ∈ firstSeen (commits.map fun c => c.queryAttr a)) :
    Commits.groupKeys commits a false false true true =
      Value.none :: ((firstSeen (commits.map fun c => c.queryAttr a)).erase Value.none) := by
  simp only [Commits.groupKeys]
  rw [if_neg (show ¬ ((false || false) = true) from by decide)]
  rw [if_pos ⟨rfl, hn⟩]
  rw [if_pos trivial]

theorem groupKeys_asc_nkf (commits : List CommitRec) (a : String)
    (hn : Value.none ∈ firstSeen (commits.map fun c => c.queryAttr a)) :
    Commits.groupKeys commits a true false true false =
      Value.none :: List.insertionSort vle
        ((firstSeen (commits.map fun c => c.queryAttr a)).filter fun k => !(k == Value.none)) := by
  simp only [Commits.groupKeys]
  rw [if_pos hn]
  have hnm : Value.none ∈
      (List.insertionSort vle
        ((firstSeen (commits.map fun c => c.queryAttr a)).filter fun k => !(k == Value.none))
       ++ [Value.none]) := List.mem_append_right _ (List.mem_singleton.mpr rfl)
  rw [if_pos ⟨rfl, hnm⟩]
  rw [if_pos trivial]
  rw [if_pos (show (true || false) = true from rfl)]
  rw [if_neg (show ¬ (false = true) from by decide)]
  rw [erase_append_none _ (none_not_mem_sort vle _)]

theorem filter_nonone_sort (r : Value → Value → Prop) [DecidableRel r] (l : List Value) :
    ((List.insertionSort r (l.filter fun k => !(k == Value.none))).filter
        fun k => !(k == Value.none))
      = List.insertionSort r (l.filter fun k => !(k == Value.none)) := by
  apply List.filter_eq_self.mpr
  intro k hk
  rw [List.mem_insertionSort, List.mem_filter] at hk
  exact hk.2

/-- C4: with `ascendingKeys` the non-null group keys are in non-decreasing
order and the null key (when present) comes last; with `descendingKeys`,
non-increasing order with the null key last; with a sort flag plus
`noneKeyFirst` the null key moves to the front instead; `noneKeyFirst`
alone puts the null key (when present) at index 0; `noneKeyLast` alone puts
it at the final index; with no flags the key order is the first-seen order
of the distinct attribute values. -/
theorem claim_C4 (commits : List CommitRec) (a : String) :
    (List.Sorted vle (((Commits.group commits a true false false false).map Prod.fst).filter
        fun k => !(k == Value.none))
      ∧ (Value.none ∈ commits.map (fun c => c.queryAttr a) →
          ((Commits.group commits a true false false false).map Prod.fst).getLast?
            = some Value.none))
    ∧ (List.Sorted vge (((Commits.group commits a false true false false).map Prod.fst).filter
        fun k => !(k == Value.none))
      ∧ (Value.none ∈ commits.map (fun c => c.queryAttr a) →
          ((Commits.group commits a false true false false).map Prod.fst).getLast?
            = some Value.none))
    ∧ (Value.none ∈ commits.map (fun c => c.queryAttr a) →
        ((Commits.group commits a true false true false).map Prod.fst).head? = some Value.none)
    ∧ (Value.none ∈ commits.map (fun c => c.queryAttr a) →
        ((Commits.group commits a false false true false).map Prod.fst).head? = some Value.none)
    ∧ (Value.none ∈ commits.map (fun c => c.queryAttr a) →
        ((Commits.group commits a false false false true).map Prod.fst).getLast?
          = some Value.none)
    ∧ ((Commits.group commits a false false false false).map Prod.fst =
        firstSeen (commits.map fun c => c.queryAttr a)) := by
  have hfs : ∀ {x : Value}, x ∈ commits.map (fun c => c.queryAttr a) →
      x ∈ firstSeen (commits.map fun c => c.queryAttr a) :=
    fun {x} h => (mem_firstSeen _ _).mpr h
  refine ⟨⟨?_, ?_⟩, ⟨?_, ?_⟩, ?_, ?_, ?_, ?_⟩
  · rw [group_fst_eq, groupKeys_asc]
    by_cases hn : Value.none ∈ firstSeen (commits.map fun c => c.queryAttr a)
    · rw [if_pos hn, filter_nonone_append_none _ (none_not_mem_sort vle _)]
      exact List.sorted_insertionSort vle _
    · rw [if_neg hn, filter_nonone_sort]
      exact List.sorted_insertionSort vle _
  · intro hmem
    rw [group_fst_eq, groupKeys_asc, if_pos (hfs hmem), List.getLast?_concat]
  · rw [group_fst_eq, groupKeys_desc]
    by_cases hn : Value.none ∈ firstSeen (commits.map fun c => c.queryAttr a)
    · rw [if_pos hn, filter_nonone_append_none _ (none_not_mem_sort vge _)]
      exact List.sorted_insertionSort vge _
    · rw [if_neg hn, filter_nonone_sort]
      exact List.sorted_insertionSort vge _
  · intro hmem
    rw [group_fst_eq, groupKeys_desc, if_pos (hfs hmem), List.getLast?_concat]
  · intro hmem
    rw [group_fst_eq, groupKeys_asc_nkf commits a (hfs hmem)]
    rfl
  · intro hmem
    rw [group_fst_eq, groupKeys_nkf commits a (hfs hmem)]
    rfl
  · intro hmem
    rw [group_fst_eq, groupKeys_nkl commits a (hfs hmem), List.getLast?_concat]
  · rw [group_fst_eq, groupKeys_no_flags]

/-- C9: when both sort flags are given, `sorted(..., reverse=descending)`
makes the descending flag win: the non-null keys come out in non-increasing
order (null key last as usual); when both placement flags are given, the
`0 if none_key_first else len(keys)` insertion index makes `noneKeyFirst`
win: the null key (when present) ends up at index 0. -/
theorem claim_C9 (commits : List CommitRec) (a : String) :
    List.Sorted vge (((Commits.group commits a true true false false).map Prod.fst).filter
        fun k => !(k == Value.none))
    ∧ (Value.none ∈ commits.map (fun c => c.queryAttr a) →
        ((Commits.group commits a false false true true).map Prod.fst).head?
          = some Value.none) := by
  constructor
  · rw [group_fst_eq, groupKeys_both]
    by_cases hn : Value.none ∈ firstSeen (commits.map fun c => c.queryAttr a)
    · rw [if_pos hn, filter_nonone_append_none _ (none_not_mem_sort vge _)]
      exact List.sorted_insertionSort vge _
    · rw [if_neg hn, filter_nonone_sort]
      exact List.sorted_insertionSort vge _
  · intro hmem
    rw [group_fst_eq, groupKeys_nkf_nkl commits a ((mem_firstSeen _ _).mpr hmem)]
    rfl

theorem claim_C4_witness :
    List.Sorted vle
      (((Commits.group [cBug, cNoType, cApi] "type" true false false false).map Prod.fst).filter
        fun k => !(k == Value.none))
    ∧ ((Commits.group [cBug, cNoType, cApi] "type" true false false false).map
        Prod.fst).getLast? = some Value.none
    ∧ ((Commits.group [cBug, cNoType, cApi] "type" false false true false).map
        Prod.fst).head? = some Value.none
    ∧ (Commits.group [cBug, cNoType, cApi] "type" false false false false).map Prod.fst =
        firstSeen ([cBug, cNoType, cApi].map fun c => c.queryAttr "type") :=
  ⟨(claim_C4 [cBug, cNoType, cApi] "type").1.1,
   (claim_C4 [cBug, cNoType, cApi] "type").1.2 (by decide),
   (claim_C4 [cBug, cNoType, cApi] "type").2.2.2.1 (by decide),
   (claim_C4 [cBug, cNoType, cApi] "type").2.2.2.2.2⟩

theorem claim_C9_witness :
    List.Sorted vge
      (((Commits.group [cBug, cNoType, cApi] "type" true true false false).map Prod.fst).filter
        fun k => !(k == Value.none))
    ∧ ((Commits.group [cBug, cNoType, cApi] "type" false false true true).map
        Prod.fst).head? = some Value.none :=
  ⟨(claim_C9 [cBug, cNoType, cApi] "type").1,
   (claim_C9 [cBug, cNoType, cApi] "type").2 (by decide)⟩
